import Mathlib

/-!
Shallow embedding of `src/app/app.js`, a browser-local productivity tracker.
Pure fragments of the JavaScript become Lean functions; the stateful parts
(timer, collections, points, persisted writes) become explicit state passing.
JavaScript numbers that only ever hold integers are modelled as `Int`
(`Math.max`, `Math.min`, `Math.floor`, `Math.round` made explicit);
`localStorage` writes are recorded as a list of written keys.
-/

namespace App

/-- A focus session, as pushed by `logSession`:
`{dateISO, minutes, title, tags:[]}` (app.js line 129). -/
structure Session where
  dateISO : String
  minutes : Int
  title : String
  tags : List String
deriving DecidableEq, Repr

/-- A mood entry `{dateISO, mood, reflection}` (app.js line 184). -/
structure MoodEntry where
  dateISO : String
  mood : String
  reflection : String
deriving DecidableEq, Repr

/-- The habit log: a map from date ISO string to a map from habit key to
completion flag, `{dateISO: {habitKey: true/false}}` (app.js line 27),
embedded as nested association lists. -/
def HabitLog : Type := List (String × List (String × Bool))

/-- `levelFromPoints` (app.js lines 146-152): maps cumulative points to a
named tier through an ascending chain of threshold tests. -/
def levelFromPoints (p : Int) : String :=
  if p < 50 then "Novice"
  else if p < 150 then "Builder"
  else if p < 300 then "Navigator"
  else if p < 600 then "Architect"
  else "Master"

/-- Index of a tier name in the ordered tier ladder (1 = lowest).
Used only to state monotonicity of the tier in the points. -/
def levelIndex (name : String) : Nat :=
  if name = "Novice" then 1
  else if name = "Builder" then 2
  else if name = "Navigator" then 3
  else if name = "Architect" then 4
  else 5

/-- Model of the JavaScript `String.prototype.trim()` builtin: drops
whitespace from both ends of the string. -/
def jsTrim (s : String) : String :=
  ⟨((s.data.dropWhile Char.isWhitespace).reverse.dropWhile Char.isWhitespace).reverse⟩

/-- Helper for `jsSplitComma`: accumulates the current field (reversed) and
emits it at each comma and at the end of the input. -/
def jsSplitCommaAux : List Char → List Char → List String
  | [], acc => [⟨acc.reverse⟩]
  | c :: rest, acc =>
    if c = ',' then ⟨acc.reverse⟩ :: jsSplitCommaAux rest []
    else jsSplitCommaAux rest (c :: acc)

/-- Model of the JavaScript `String.prototype.split(',')` builtin: splits on
every comma; the empty string yields `[""]`, like in JavaScript. -/
def jsSplitComma (s : String) : List String := jsSplitCommaAux s.data []

/-- Model of JavaScript `Math.round(t / 60)` for an integer number of
seconds `t` (app.js line 119): JavaScript rounds half toward positive
infinity, i.e. `round(x) = floor(x + 1/2)`, so on integers this is
`⌊(t + 30) / 60⌋` with floor division. -/
def jsRoundDiv60 (t : Int) : Int := Int.fdiv (t + 30) 60

/-- The minutes-input field of the timer, `el.timerMinutesInput.value`,
modelled as `none` when the field is empty (a falsy `''` in JavaScript) and
`some n` when it holds a string that `parseInt(_, 10)` parses to `n`.
`parseInt(value || '25', 10)` is then `(f.getD 25)`. -/
def MinutesField : Type := Option Int

/-- Elapsed minutes computed by `logSession` (app.js lines 118-119):
`Math.round((Math.max(0, parseInt(value || '25', 10)) * 60 - timer.remainingSec) / 60)`. -/
def elapsedMinutes (minutesField : Option Int) (remainingSec : Int) : Int :=
  jsRoundDiv60 (max 0 (minutesField.getD 25) * 60 - remainingSec)

/-- The points awarded for a logged session (app.js line 131):
`Math.min(10, Math.max(1, Math.floor(minutes / 5)))`. -/
def sessionAward (minutes : Int) : Int := min 10 (max 1 (Int.fdiv minutes 5))

/-- The session title (app.js line 120):
`(el.sessionTitle.value || 'Focus block').trim()` — the default only kicks
in when the field value is the empty string (the only falsy string). -/
def sessionTitle (titleField : String) : String :=
  jsTrim (if titleField = "" then "Focus block" else titleField)

/-- The session tags (app.js line 121):
`(el.sessionTags.value || '').split(',').map(t => t.trim()).filter(Boolean)` —
`filter(Boolean)` keeps exactly the non-empty strings. -/
def sessionTags (tagsField : String) : List String :=
  ((jsSplitComma (if tagsField = "" then "" else tagsField)).map jsTrim).filter
    (fun t => t ≠ "")

/-- Result of a `logSession` call: the updated `sessions` collection and
`points` counter, the toast messages shown, and the `localStorage` keys
written, in order. -/
structure LogResult where
  sessions : List Session
  points : Int
  toasts : List String
  writes : List String
deriving DecidableEq, Repr

/-- `logSession` (app.js lines 117-137). Computes the elapsed minutes from
the configured minutes field and the timer's remaining seconds; if they are
`≤ 0` it only toasts a rejection; otherwise it appends the new session,
persists the sessions, awards `sessionAward` points (which persists the
points), and toasts a confirmation. Rendering calls are outside the model. -/
def logSession (minutesField : Option Int) (remainingSec : Int)
    (titleField tagsField today : String)
    (sessions : List Session) (points : Int) : LogResult :=
  let minutes := elapsedMinutes minutesField remainingSec
  let title := sessionTitle titleField
  let tags := sessionTags tagsField
  if minutes ≤ 0 then
    ⟨sessions, points, ["Log some minutes before saving."], []⟩
  else
    ⟨sessions ++ [⟨today, minutes, title, tags⟩],
      points + sessionAward minutes,
      ["Logged \"" ++ title ++ "\" (" ++ toString minutes ++ "m)"],
      ["tw_sessions", "tw_points"]⟩

/-- The focus-timer state (app.js line 82) together with the points counter
its completion bonus feeds: `remainingSec`, `running`, and `pts`. The
`intervalId` handle is represented by `running` itself: the interval is
scheduled exactly while `running` is true (`startTimer` sets it and
schedules; `pauseTimer` clears it and cancels). -/
structure TimerSt where
  remainingSec : Int
  running : Bool
  pts : Int
deriving DecidableEq, Repr

/-- One tick of the interval callback (app.js lines 94-102):
`remainingSec = Math.max(0, remainingSec - 1)`; if it is now `0`, pause the
timer (cancelling the interval) and award the +5 completion bonus. A tick
only happens while the interval is scheduled, i.e. while `running`. -/
def tick (st : TimerSt) : TimerSt :=
  if st.running then
    let r := max 0 (st.remainingSec - 1)
    if r = 0 then { remainingSec := r, running := false, pts := st.pts + 5 }
    else { st with remainingSec := r }
  else st

/-- `startTimer` (app.js lines 91-103): no-op when already running,
otherwise sets `running` and schedules the interval. -/
def startTimer (st : TimerSt) : TimerSt :=
  if st.running then st else { st with running := true }

/-- `pauseTimer` (app.js lines 105-108): clears `running` and cancels the
interval. -/
def pauseTimer (st : TimerSt) : TimerSt := { st with running := false }

/-- `resetTimer` (app.js lines 110-115): pauses, then sets
`remainingSec = Math.max(1, parseInt(value || '25', 10)) * 60`. -/
def resetTimer (minutesField : Option Int) (st : TimerSt) : TimerSt :=
  let p := pauseTimer st
  { p with remainingSec := max 1 (minutesField.getD 25) * 60 }

/-- Runs `n` consecutive interval ticks. -/
def runTicks : Nat → TimerSt → TimerSt
  | 0, st => st
  | n + 1, st => runTicks n (tick st)

/-- Result of the `maintainStreak` reconciliation: the streak counter, the
`lastActiveDate`, and the `localStorage` keys written, in order. -/
structure StreakResult where
  streak : Int
  lastDate : String
  writes : List String
deriving DecidableEq, Repr

/-- `habits[d] && Object.values(habits[d]).some(Boolean)` (app.js line 39):
true when the habit map for date `d` exists and has some flag set. -/
def habitActive (habits : HabitLog) (d : String) : Bool :=
  match List.lookup d habits with
  | some m => m.any (fun kv => kv.2)
  | none => false

/-- The `hadActivityYesterday` test of `maintainStreak` (app.js lines
38-40): some session on `d`, or some habit flag set on `d`, or some mood
entry on `d`. -/
def hadActivity (sessions : List Session) (habits : HabitLog)
    (moods : List MoodEntry) (d : String) : Bool :=
  sessions.any (fun s => s.dateISO = d) || habitActive habits d ||
    moods.any (fun m => m.dateISO = d)

/-- `maintainStreak` (app.js lines 34-47), run once at process start: when
`lastDate` differs from `today`, the streak is incremented if `lastDate`
had any activity and reset to 0 otherwise, and both the streak and the new
`lastActiveDate` are persisted; otherwise nothing happens. -/
def maintainStreak (lastDate today : String) (sessions : List Session)
    (habits : HabitLog) (moods : List MoodEntry) (streak : Int) : StreakResult :=
  if lastDate = today then ⟨streak, lastDate, []⟩
  else
    let s' := if hadActivity sessions habits moods lastDate then streak + 1 else 0
    ⟨s', today, ["tw_streak", "tw_last_date"]⟩

/-- Result of a `saveMood` call: the updated `moods` collection and
`points`, the toasts, and the `localStorage` keys written, in order. -/
structure MoodResult where
  moods : List MoodEntry
  points : Int
  toasts : List String
  writes : List String
deriving DecidableEq, Repr

/-- `saveMood` (app.js lines 180-193): rejects when both the mood and the
trimmed reflection are empty; otherwise builds today's entry, replaces the
entry found by `findIndex(m => m.dateISO === entry.dateISO)` when one
exists (JavaScript `idx >= 0` becomes `idx < moods.length` for
`List.findIdx`, which returns the length when nothing matches), appends
otherwise, persists the moods and awards +1 point (persisting points). -/
def saveMood (moodField reflectionField today : String)
    (moods : List MoodEntry) (points : Int) : MoodResult :=
  let mood := moodField
  let reflection := jsTrim reflectionField
  if mood = "" ∧ reflection = "" then
    ⟨moods, points, ["Pick a mood or write a reflection."], []⟩
  else
    let entry : MoodEntry := ⟨today, mood, reflection⟩
    let idx := moods.findIdx (fun m => m.dateISO = today)
    let moods' := if idx < moods.length then moods.set idx entry else moods ++ [entry]
    ⟨moods', points + 1, ["Saved."], ["tw_moods", "tw_points"]⟩

/-- One step of the tag-map update (app.js line 305):
`map[t] = (map[t] || 0) + s.minutes` on an insertion-ordered object,
embedded as an association list — update the existing binding in place, or
append a new binding at the end. -/
def bumpTag (m : List (String × Int)) (t : String) (mins : Int) :
    List (String × Int) :=
  match m with
  | [] => [(t, mins)]
  | (k, v) :: rest =>
    if k = t then (k, v + mins) :: rest else (k, v) :: bumpTag rest t mins

/-- The tag map built by the loops of `aggregateTags` (app.js lines
302-307): for each session, each tag of the session adds the session's full
minute count to that tag's entry. -/
def buildTagMap (sessions : List Session) : List (String × Int) :=
  sessions.foldl (fun m s => s.tags.foldl (fun m t => bumpTag m t s.minutes) m) []

/-- Stable insertion into a list sorted by second component descending:
models a step of the stable `Array.prototype.sort((a, b) => b[1] - a[1])`.
An element is placed before the first strictly-smaller entry, so entries
with equal totals keep their original relative order. -/
def insertDesc (x : String × Int) : List (String × Int) → List (String × Int)
  | [] => [x]
  | y :: ys => if y.2 ≤ x.2 then x :: y :: ys else y :: insertDesc x ys

/-- Stable sort by second component descending, modelling
`Object.entries(map).sort((a, b) => b[1] - a[1])` (app.js line 308). -/
def sortDescByVal (l : List (String × Int)) : List (String × Int) :=
  l.foldr insertDesc []

/-- `aggregateTags(limit)` (app.js lines 301-310): build the tag map in
first-encounter order, sort its entries by total descending (stably), and
keep the first `limit` entries (`slice(0, limit)` / `Object.fromEntries`). -/
def aggregateTags (sessions : List Session) (limit : Nat) : List (String × Int) :=
  (sortDescByVal (buildTagMap sessions)).take limit

/-- The flattened stream of `(tag, minutes)` pairs visited by the loops of
`aggregateTags`, in visit order: used to reason about `buildTagMap`. -/
def tagPairs (sessions : List Session) : List (String × Int) :=
  sessions.foldr (fun s acc => s.tags.map (fun t => (t, s.minutes)) ++ acc) []

/-- Sum of the values carried by the occurrences of tag `t` in a pair
stream. -/
def sumFor (t : String) (pairs : List (String × Int)) : Int :=
  pairs.foldr (fun q a => if q.1 = t then q.2 + a else a) 0

/-- The keys of a stream that are not yet in `seen`, in the order they are
first encountered. -/
def newTagKeys (seen : List String) : List String → List String
  | [] => []
  | t :: rest =>
    if t ∈ seen then newTagKeys seen rest
    else t :: newTagKeys (seen ++ [t]) rest

/-- All distinct tags of the sessions, in the order in which they are first
encountered by the loops of `aggregateTags`. -/
def firstEncounterTags (sessions : List Session) : List String :=
  newTagKeys [] ((tagPairs sessions).map Prod.fst)

/-- Written from the claim's words: the minutes total of tag `t` as "the
sum of the full minutes of every Session whose tags contain that tag" —
each containing session counted once, regardless of how many times `t`
occurs among its tags. -/
def memTotal (t : String) (sessions : List Session) : Int :=
  sessions.foldr (fun s a => if s.tags.contains t then s.minutes + a else a) 0

/-- The minutes total of tag `t` as the code computes it: each session
contributes its minutes once per occurrence of `t` in its tag list. -/
def multTotal (t : String) (sessions : List Session) : Int :=
  sessions.foldr (fun s a => s.minutes * s.tags.count t + a) 0

/-- Written from the claim's words: first-encountered distinct tags, each
mapped to its containing-session total (`memTotal`), stably sorted by total
descending, truncated to the top `limit`. -/
def aggregateTagsSpecMem (sessions : List Session) (limit : Nat) :
    List (String × Int) :=
  (sortDescByVal ((firstEncounterTags sessions).map
    (fun t => (t, memTotal t sessions)))).take limit

/-- Like `aggregateTagsSpecMem` but with the per-occurrence total
(`multTotal`), matching the code on sessions with repeated tags. -/
def aggregateTagsSpecMult (sessions : List Session) (limit : Nat) :
    List (String × Int) :=
  (sortDescByVal ((firstEncounterTags sessions).map
    (fun t => (t, multTotal t sessions)))).take limit

/-- The tag-map fold restated over a flat pair stream: used to relate the
nested loops of `aggregateTags` to the per-tag totals. -/
def foldPairs (m : List (String × Int)) (pairs : List (String × Int)) :
    List (String × Int) :=
  pairs.foldl (fun m q => bumpTag m q.1 q.2) m

/-! ## Theorems -/

/-- The tier index produced by `levelFromPoints` as a nest of threshold
tests on the points. -/
theorem levelIndex_levelFromPoints (p : Int) :
    levelIndex (levelFromPoints p) =
      if p < 50 then 1 else if p < 150 then 2 else if p < 300 then 3
      else if p < 600 then 4 else 5 := by
  unfold levelFromPoints
  split_ifs <;> rfl

/-- C1: for every integer `p ≥ 0`, `levelFromPoints p` is `"Novice"` exactly
when `p < 50`, `"Builder"` exactly on `[50, 150)`, `"Navigator"` exactly on
`[150, 300)`, `"Architect"` exactly on `[300, 600)`, and `"Master"` exactly
when `p ≥ 600`; the tier index is monotone non-decreasing in the points,
and the eight boundary points evaluate as documented. -/
theorem levelFromPoints_thresholds (p : Int) (hp : 0 ≤ p) :
    (levelFromPoints p = "Novice" ↔ p < 50) ∧
    (levelFromPoints p = "Builder" ↔ 50 ≤ p ∧ p < 150) ∧
    (levelFromPoints p = "Navigator" ↔ 150 ≤ p ∧ p < 300) ∧
    (levelFromPoints p = "Architect" ↔ 300 ≤ p ∧ p < 600) ∧
    (levelFromPoints p = "Master" ↔ 600 ≤ p) ∧
    (∀ q : Int, p ≤ q →
      levelIndex (levelFromPoints p) ≤ levelIndex (levelFromPoints q)) ∧
    levelFromPoints 49 = "Novice" ∧ levelFromPoints 50 = "Builder" ∧
    levelFromPoints 149 = "Builder" ∧ levelFromPoints 150 = "Navigator" ∧
    levelFromPoints 299 = "Navigator" ∧ levelFromPoints 300 = "Architect" ∧
    levelFromPoints 599 = "Architect" ∧ levelFromPoints 600 = "Master" := by
  refine ⟨?_, ?_, ?_, ?_, ?_, ?_, by decide, by decide, by decide, by decide,
    by decide, by decide, by decide, by decide⟩
  · unfold levelFromPoints
    split_ifs <;>
      first
        | exact iff_of_true rfl (by omega)
        | exact iff_of_false (by decide) (by omega)
  · unfold levelFromPoints
    split_ifs <;>
      first
        | exact iff_of_true rfl (by omega)
        | exact iff_of_false (by decide) (by omega)
  · unfold levelFromPoints
    split_ifs <;>
      first
        | exact iff_of_true rfl (by omega)
        | exact iff_of_false (by decide) (by omega)
  · unfold levelFromPoints
    split_ifs <;>
      first
        | exact iff_of_true rfl (by omega)
        | exact iff_of_false (by decide) (by omega)
  · unfold levelFromPoints
    split_ifs <;>
      first
        | exact iff_of_true rfl (by omega)
        | exact iff_of_false (by decide) (by omega)
  · intro q hq
    rw [levelIndex_levelFromPoints, levelIndex_levelFromPoints]
    split_ifs <;> omega

/-- Witness for C1 at `p = 600`. -/
theorem levelFromPoints_thresholds_witness :
    levelFromPoints 600 = "Novice" ↔ (600 : Int) < 50 :=
  (levelFromPoints_thresholds 600 (by decide)).1

/-- C2: whenever `logSession` accepts (computed elapsed minutes `m > 0`),
the points it adds equal `min 10 (max 1 ⌊m / 5⌋)`; in particular
`m ∈ {1, 2, 3, 4}` awards 1 point, `m = 25` awards 5, `m = 50` awards 10,
and `m = 1000` awards 10 (capped). -/
theorem logSession_award_formula (f : Option Int) (r : Int) (t g d : String)
    (ss : List Session) (p : Int) (h : 0 < elapsedMinutes f r) :
    (logSession f r t g d ss p).points - p
        = min 10 (max 1 (Int.fdiv (elapsedMinutes f r) 5)) ∧
    (logSession (some 1) 0 "" "" "2024-05-01" [] 0).points = 1 ∧
    (logSession (some 2) 0 "" "" "2024-05-01" [] 0).points = 1 ∧
    (logSession (some 3) 0 "" "" "2024-05-01" [] 0).points = 1 ∧
    (logSession (some 4) 0 "" "" "2024-05-01" [] 0).points = 1 ∧
    (logSession (some 25) 0 "" "" "2024-05-01" [] 0).points = 5 ∧
    (logSession (some 50) 0 "" "" "2024-05-01" [] 0).points = 10 ∧
    (logSession (some 1000) 0 "" "" "2024-05-01" [] 0).points = 10 := by
  refine ⟨?_, by decide, by decide, by decide, by decide, by decide,
    by decide, by decide⟩
  simp only [logSession]
  rw [if_neg (by omega)]
  show p + sessionAward (elapsedMinutes f r) - p = _
  rw [show min 10 (max 1 (Int.fdiv (elapsedMinutes f r) 5))
        = sessionAward (elapsedMinutes f r) from rfl]
  exact add_sub_cancel_left p _

/-- Witness for C2: configured 25 minutes, timer fully run down. -/
theorem logSession_award_formula_witness :
    (logSession (some 25) 0 "T" "x" "2024-05-01" [] 7).points - 7
      = min 10 (max 1 (Int.fdiv (elapsedMinutes (some 25) 0) 5)) :=
  (logSession_award_formula (some 25) 0 "T" "x" "2024-05-01" [] 7 (by decide)).1

/-- C5: when the computed elapsed minutes are `≤ 0`, `logSession` only
emits the advisory toast: the sessions and points are unchanged and no
storage key is written. -/
theorem logSession_rejects_nonpositive (f : Option Int) (r : Int)
    (t g d : String) (ss : List Session) (p : Int)
    (h : elapsedMinutes f r ≤ 0) :
    logSession f r t g d ss p
      = ⟨ss, p, ["Log some minutes before saving."], []⟩ := by
  simp only [logSession]
  rw [if_pos h]

/-- Witness for C5: configured 25 minutes, timer never started
(remaining 1500 seconds), so elapsed minutes are 0. -/
theorem logSession_rejects_nonpositive_witness :
    logSession (some 25) 1500 "T" "a, b" "2024-05-01"
        [⟨"2024-05-01", 5, "s", []⟩] 7
      = ⟨[⟨"2024-05-01", 5, "s", []⟩], 7,
          ["Log some minutes before saving."], []⟩ :=
  logSession_rejects_nonpositive (some 25) 1500 "T" "a, b" "2024-05-01"
    [⟨"2024-05-01", 5, "s", []⟩] 7 (by decide)

/-- Counterexample to C7 as stated: a missing minutes input does not clamp
to 1 minute — `parseInt(value || '25', 10)` defaults it to 25 minutes, so
`remainingSeconds` becomes 1500, not 60. -/
theorem resetTimer_missing_counterexample :
    (resetTimer none ⟨0, false, 0⟩).remainingSec = 1500 ∧
      ((1500 : Int) = 60 → False) := by
  exact ⟨rfl, by decide⟩

/-- C7 (amended): `resetTimer` sets
`remainingSeconds = max(1, parseInt(value || '25', 10)) * 60` and pauses;
every non-positive numeric input clamps to 1 minute (60 seconds), while a
missing input falls back to the default of 25 minutes (1500 seconds). -/
theorem resetTimer_configure (f : Option Int) (st : TimerSt) :
    (resetTimer f st).remainingSec = max 1 (f.getD 25) * 60 ∧
    (resetTimer f st).running = false ∧
    (∀ n : Int, n ≤ 0 → (resetTimer (some n) st).remainingSec = 60) ∧
    (resetTimer none st).remainingSec = 1500 := by
  refine ⟨rfl, rfl, ?_, rfl⟩
  intro n hn
  show max 1 ((some n).getD 25) * 60 = 60
  have hmax : max 1 ((some n).getD 25) = 1 := by
    simp only [Option.getD_some]
    omega
  rw [hmax]
  decide

/-- Witness for C7 (amended) at the non-positive input `-5`. -/
theorem resetTimer_configure_witness :
    (resetTimer (some (-5)) ⟨0, false, 0⟩).remainingSec = 60 :=
  (resetTimer_configure (some (-5)) ⟨0, false, 0⟩).2.2.1 (-5) (by decide)

/-- Counterexample to C8 as stated: a whitespace-only title is truthy in
JavaScript, so `(value || 'Focus block')` keeps it and `trim` empties it —
the created session's title is `""`, not the default `"Focus block"`. -/
theorem logSession_title_counterexample :
    (logSession (some 25) 0 " " "" "2024-05-01" [] 0).sessions
        = [⟨"2024-05-01", 25, "", []⟩] ∧
      (("" : String) = "Focus block" → False) := by
  exact ⟨by decide, by decide⟩

/-- C8 (amended): every session created by `logSession` has title
`trim(title-field if non-empty, else "Focus block")` — so the default is
used exactly when the entered title is the empty string, and a
whitespace-only title trims to `""` — and has tags obtained from the
comma-separated tags field by splitting on commas, trimming each piece and
dropping the empty ones. -/
theorem logSession_session_shape (f : Option Int) (r : Int) (t g d : String)
    (ss : List Session) (p : Int) (h : 0 < elapsedMinutes f r) :
    ((logSession f r t g d ss p).sessions
        = ss ++ [⟨d, elapsedMinutes f r,
            jsTrim (if t = "" then "Focus block" else t),
            ((jsSplitComma g).map jsTrim).filter (fun x => x ≠ "")⟩]) ∧
    (t = "" → sessionTitle t = "Focus block") ∧
    sessionTitle " " = "" ∧
    sessionTags " a , , b " = ["a", "b"] ∧
    sessionTags "" = [] := by
  refine ⟨?_, ?_, by decide, by decide, by decide⟩
  · simp only [logSession]
    rw [if_neg (by omega)]
    show ss ++ [⟨d, elapsedMinutes f r, sessionTitle t, sessionTags g⟩] = _
    have htags : sessionTags g
        = ((jsSplitComma g).map jsTrim).filter (fun x => x ≠ "") := by
      by_cases hg : g = "" <;> simp [sessionTags, hg]
    rw [htags]
    rfl
  · intro ht
    rw [ht]
    decide

/-- Witness for C8 (amended): logging with a padded title and tags. -/
theorem logSession_session_shape_witness :
    (logSession (some 25) 0 " a " " x , " "2024-05-01" [] 0).sessions
      = [] ++ [⟨"2024-05-01", elapsedMinutes (some 25) 0,
          jsTrim (if " a " = "" then "Focus block" else " a "),
          ((jsSplitComma " x , ").map jsTrim).filter (fun x => x ≠ "")⟩] :=
  (logSession_session_shape (some 25) 0 " a " " x , " "2024-05-01" [] 0
    (by decide)).1

/-- Ticks performed one after another: the last tick peels off at the end. -/
theorem runTicks_succ_end (n : Nat) (st : TimerSt) :
    runTicks (n + 1) st = tick (runTicks n st) := by
  induction n generalizing st with
  | zero => rfl
  | succ k ih =>
    show runTicks (k + 1) (tick st) = tick (runTicks (k + 1) st)
    rw [ih (tick st)]
    rfl

/-- A tick does nothing once the interval has been cancelled. -/
theorem tick_stuck (st : TimerSt) (h : st.running = false) : tick st = st := by
  simp [tick, h]

/-- Any number of ticks does nothing once the interval has been
cancelled. -/
theorem runTicks_stuck (n : Nat) (st : TimerSt) (h : st.running = false) :
    runTicks n st = st := by
  induction n with
  | zero => rfl
  | succ k ih =>
    show runTicks k (tick st) = st
    rw [tick_stuck st h]
    exact ih

/-- A tick of a running timer, written out. -/
theorem tick_run (v p : Int) :
    tick ⟨v, true, p⟩
      = if max 0 (v - 1) = 0 then ⟨max 0 (v - 1), false, p + 5⟩
        else ⟨max 0 (v - 1), true, p⟩ := rfl

/-- The countdown from `n > 0` seconds: each of the first `n - 1` ticks
decrements, and the `n`-th tick hits zero, pauses and awards the +5 bonus. -/
theorem runTicks_countdown (n : Nat) (p : Int) (hn : 0 < n) :
    ∀ k : Nat, k ≤ n →
      runTicks k ⟨(n : Int), true, p⟩
        = if k < n then ⟨(n : Int) - k, true, p⟩ else ⟨0, false, p + 5⟩ := by
  intro k
  induction k with
  | zero =>
    intro _
    rw [if_pos hn]
    show (⟨(n : Int), true, p⟩ : TimerSt) = _
    norm_num
  | succ k ih =>
    intro hk
    have hk' : k ≤ n := Nat.le_of_succ_le hk
    have hkn : k < n := hk
    rw [runTicks_succ_end, ih hk', if_pos hkn]
    by_cases hlt : k + 1 < n
    · rw [if_pos hlt, tick_run,
        show max 0 ((n : Int) - k - 1) = (n : Int) - k - 1 from by omega,
        if_neg (show ¬((n : Int) - k - 1 = 0) from by omega)]
      simp only [TimerSt.mk.injEq]
      refine ⟨by push_cast; ring, trivial, trivial⟩
    · rw [if_neg hlt, tick_run,
        show max 0 ((n : Int) - k - 1) = 0 from by omega, if_pos rfl]

/-- C4: configuring the timer to `m ≥ 1` minutes and running it without
interruption, every tick decrements `remainingSeconds` by one (clamped at
0) with the timer still running and no points awarded; the tick that
reaches exactly 0 auto-pauses and awards exactly +5 points; and further
ticks change nothing, so the bonus fires exactly once for the run. -/
theorem timer_full_run (m : Nat) (hm : 1 ≤ m) (p r0 : Int) (b0 : Bool) :
    (∀ k : Nat, k < m * 60 →
      runTicks k (startTimer (resetTimer (some ((m : Nat) : Int)) ⟨r0, b0, p⟩))
        = ⟨((m : Nat) : Int) * 60 - k, true, p⟩) ∧
    runTicks (m * 60)
        (startTimer (resetTimer (some ((m : Nat) : Int)) ⟨r0, b0, p⟩))
      = ⟨0, false, p + 5⟩ ∧
    (∀ j : Nat,
      runTicks j (runTicks (m * 60)
          (startTimer (resetTimer (some ((m : Nat) : Int)) ⟨r0, b0, p⟩)))
        = ⟨0, false, p + 5⟩) := by
  have hst : startTimer (resetTimer (some ((m : Nat) : Int)) ⟨r0, b0, p⟩)
      = ⟨((m * 60 : Nat) : Int), true, p⟩ := by
    show (⟨max 1 ((m : Nat) : Int) * 60, true, p⟩ : TimerSt) = _
    simp only [TimerSt.mk.injEq]
    refine ⟨by push_cast; omega, trivial, trivial⟩
  have h60 : 0 < m * 60 := by omega
  have hmain := runTicks_countdown (m * 60) p h60
  refine ⟨?_, ?_, ?_⟩
  · intro k hk
    rw [hst, hmain k (Nat.le_of_lt hk), if_pos hk]
    simp only [TimerSt.mk.injEq]
    refine ⟨by push_cast; ring, trivial, trivial⟩
  · rw [hst, hmain (m * 60) le_rfl, if_neg (lt_irrefl _)]
  · intro j
    rw [hst, hmain (m * 60) le_rfl, if_neg (lt_irrefl _)]
    exact runTicks_stuck j ⟨0, false, p + 5⟩ rfl

/-- Witness for C4 at `m = 1`: sixty ticks finish the run with exactly +5
points and the timer paused. -/
theorem timer_full_run_witness :
    runTicks (1 * 60)
        (startTimer (resetTimer (some ((1 : Nat) : Int)) ⟨0, false, 0⟩))
      = ⟨0, false, 0 + 5⟩ :=
  (timer_full_run 1 (by decide) 0 0 false).2.1

/-- C10: starting the timer while `remainingSeconds` is already 0 schedules
the countdown again; its first tick leaves `remainingSeconds` at
`max 0 (0 - 1) = 0`, fires the +5 completion award again and auto-pauses
again — in general the bonus fires on every tick that ends at zero while
running, with no once-per-configuration guard. -/
theorem tick_at_zero_fires_again (p : Int) (st : TimerSt) :
    (startTimer ⟨0, false, p⟩).running = true ∧
    tick (startTimer ⟨0, false, p⟩) = ⟨0, false, p + 5⟩ ∧
    (st.running = true → max 0 (st.remainingSec - 1) = 0 →
      (tick st).running = false ∧ (tick st).pts = st.pts + 5) := by
  refine ⟨rfl, rfl, ?_⟩
  intro h1 h2
  simp [tick, h1, h2]

/-- Witness for C10: one tick from a running timer at zero. -/
theorem tick_at_zero_fires_again_witness :
    (tick ⟨0, true, 0⟩).running = false ∧
      (tick ⟨0, true, 0⟩).pts = (⟨0, true, 0⟩ : TimerSt).pts + 5 :=
  (tick_at_zero_fires_again 0 ⟨0, true, 0⟩).2.2 rfl (by decide)

/-- The boolean activity test of `maintainStreak`, as the disjunction of
the three existence statements it decides. -/
theorem hadActivity_iff (sessions : List Session) (habits : HabitLog)
    (moods : List MoodEntry) (d : String) :
    hadActivity sessions habits moods d = true ↔
      ((∃ s ∈ sessions, s.dateISO = d) ∨
       (∃ hm, List.lookup d habits = some hm ∧ ∃ kv ∈ hm, kv.2 = true) ∨
       (∃ m ∈ moods, m.dateISO = d)) := by
  unfold hadActivity habitActive
  rcases hl : List.lookup d habits with _ | hm
  · simp [hl, List.any_eq_true]
  · simp [hl, List.any_eq_true]
    exact or_assoc

/-- C3: the `maintainStreak` reconciliation run at process start. When
`lastActiveDate` differs from today, the streak becomes `streak + 1` when
that date has at least one session, one habit flag set true, or one mood
entry, and 0 otherwise, with `lastActiveDate` set to today and both values
persisted; when the dates match, nothing changes and nothing is written. -/
theorem maintainStreak_spec (lastDate today : String)
    (sessions : List Session) (habits : HabitLog) (moods : List MoodEntry)
    (streak : Int) :
    (lastDate ≠ today →
      (((∃ s ∈ sessions, s.dateISO = lastDate) ∨
        (∃ hm, List.lookup lastDate habits = some hm ∧ ∃ kv ∈ hm, kv.2 = true) ∨
        (∃ m ∈ moods, m.dateISO = lastDate)) →
          maintainStreak lastDate today sessions habits moods streak
            = ⟨streak + 1, today, ["tw_streak", "tw_last_date"]⟩) ∧
      ((¬ ((∃ s ∈ sessions, s.dateISO = lastDate) ∨
           (∃ hm, List.lookup lastDate habits = some hm ∧ ∃ kv ∈ hm, kv.2 = true) ∨
           (∃ m ∈ moods, m.dateISO = lastDate))) →
          maintainStreak lastDate today sessions habits moods streak
            = ⟨0, today, ["tw_streak", "tw_last_date"]⟩)) ∧
    (lastDate = today →
      maintainStreak lastDate today sessions habits moods streak
        = ⟨streak, lastDate, []⟩) := by
  constructor
  · intro hne
    constructor
    · intro hact
      simp only [maintainStreak]
      rw [if_neg hne,
        if_pos ((hadActivity_iff sessions habits moods lastDate).mpr hact)]
    · intro hact
      simp only [maintainStreak]
      rw [if_neg hne,
        if_neg (fun h => hact ((hadActivity_iff sessions habits moods lastDate).mp h))]
  · intro heq
    simp only [maintainStreak]
    rw [if_pos heq]

/-- Witness for C3: a session on the previous active date lets the streak
grow from 3 to 4 when the process starts on the next day. -/
theorem maintainStreak_spec_witness :
    maintainStreak "2024-05-01" "2024-05-02" [⟨"2024-05-01", 10, "t", []⟩]
        ([] : HabitLog) [] 3
      = ⟨3 + 1, "2024-05-02", ["tw_streak", "tw_last_date"]⟩ :=
  ((maintainStreak_spec "2024-05-01" "2024-05-02" [⟨"2024-05-01", 10, "t", []⟩]
      ([] : HabitLog) [] 3).1 (by decide)).1
    (Or.inl ⟨⟨"2024-05-01", 10, "t", []⟩, by simp, rfl⟩)

/-- Setting an index of a list to the value it already holds leaves the
list unchanged. -/
theorem set_getElem_self_eq {α : Type _} (l : List α) (i : Nat) (a : α)
    (h : i < l.length) (ha : l[i] = a) : l.set i a = l := by
  apply List.ext_getElem
  · simp
  · intro j h1 h2
    rw [List.getElem_set]
    split
    · rename_i heq
      subst heq
      exact ha.symm
    · rfl

/-- C6: `saveMood` keeps at most one mood entry per date. On a `moods`
sequence with pairwise-distinct dates and a non-rejected input, when an
entry for today exists the entry at the matching date is replaced in place
and the length is unchanged; when none exists the new entry is appended and
the length grows by exactly 1; distinctness of the dates is preserved. -/
theorem saveMood_unique_per_date (mf rf today : String)
    (moods : List MoodEntry) (p : Int)
    (hvalid : ¬(mf = "" ∧ jsTrim rf = ""))
    (hnd : (moods.map MoodEntry.dateISO).Nodup) :
    ((∃ m ∈ moods, m.dateISO = today) →
      ∃ i, ∃ hi : i < moods.length,
        (moods.get ⟨i, hi⟩).dateISO = today ∧
        (saveMood mf rf today moods p).moods
          = moods.set i ⟨today, mf, jsTrim rf⟩ ∧
        (saveMood mf rf today moods p).moods.length = moods.length) ∧
    ((¬ ∃ m ∈ moods, m.dateISO = today) →
      (saveMood mf rf today moods p).moods
          = moods ++ [⟨today, mf, jsTrim rf⟩] ∧
      (saveMood mf rf today moods p).moods.length = moods.length + 1) ∧
    ((saveMood mf rf today moods p).moods.map MoodEntry.dateISO).Nodup := by
  have hmoods : (saveMood mf rf today moods p).moods
      = (if moods.findIdx (fun m => m.dateISO = today) < moods.length
         then moods.set (moods.findIdx (fun m => m.dateISO = today))
                ⟨today, mf, jsTrim rf⟩
         else moods ++ [⟨today, mf, jsTrim rf⟩]) := by
    simp only [saveMood]
    rw [if_neg hvalid]
  by_cases hex : ∃ m ∈ moods, m.dateISO = today
  · have hlt : moods.findIdx (fun m => m.dateISO = today) < moods.length :=
      List.findIdx_lt_length.mpr (by simpa using hex)
    have hget : (moods.get ⟨moods.findIdx (fun m => m.dateISO = today), hlt⟩).dateISO
        = today := by
      have h1 := @List.findIdx_get _ (fun m => decide (m.dateISO = today)) moods hlt
      simpa using h1
    have hset : (saveMood mf rf today moods p).moods
        = moods.set (moods.findIdx (fun m => m.dateISO = today))
            ⟨today, mf, jsTrim rf⟩ := by
      rw [hmoods, if_pos hlt]
    refine ⟨fun _ => ⟨moods.findIdx (fun m => m.dateISO = today), hlt, hget,
      hset, ?_⟩, fun hnex => absurd hex hnex, ?_⟩
    · rw [hset, List.length_set]
    · rw [hset, List.map_set]
      have hid : (moods.map MoodEntry.dateISO).set
            (moods.findIdx (fun m => m.dateISO = today)) today
          = moods.map MoodEntry.dateISO := by
        refine set_getElem_self_eq _ _ _ (by simpa using hlt) ?_
        rw [List.getElem_map]
        exact hget
      rw [show (⟨today, mf, jsTrim rf⟩ : MoodEntry).dateISO = today from rfl, hid]
      exact hnd
  · have hnlt : ¬ moods.findIdx (fun m => m.dateISO = today) < moods.length := by
      rw [List.findIdx_lt_length]
      simpa using hex
    have happ : (saveMood mf rf today moods p).moods
        = moods ++ [⟨today, mf, jsTrim rf⟩] := by
      rw [hmoods, if_neg hnlt]
    have hnotmem : today ∉ moods.map MoodEntry.dateISO := by
      simp only [List.mem_map]
      rintro ⟨m, hm, hmd⟩
      exact hex ⟨m, hm, hmd⟩
    refine ⟨fun hex' => absurd hex' hex, fun _ => ⟨happ, by rw [happ]; simp⟩, ?_⟩
    rw [happ, List.map_append]
    refine hnd.append (by simp) ?_
    intro x hx hx2
    simp only [List.map_cons, List.map_nil, List.mem_singleton] at hx2
    subst hx2
    exact absurd hx hnotmem

/-- Witness for C6: saving a mood on a fresh date appends the entry. -/
theorem saveMood_unique_per_date_witness :
    (saveMood "happy" "" "2024-05-02" [⟨"2024-05-01", "ok", "r"⟩] 0).moods
        = [⟨"2024-05-01", "ok", "r"⟩] ++ [⟨"2024-05-02", "happy", jsTrim ""⟩] ∧
      (saveMood "happy" "" "2024-05-02" [⟨"2024-05-01", "ok", "r"⟩] 0).moods.length
        = ([⟨"2024-05-01", "ok", "r"⟩] : List MoodEntry).length + 1 :=
  (saveMood_unique_per_date "happy" "" "2024-05-02"
      ([⟨"2024-05-01", "ok", "r"⟩] : List MoodEntry) 0
      (by decide) (by decide)).2.1 (by decide)

/-- `sumFor` on a cons of the pair stream. -/
theorem sumFor_cons (x k : String) (v : Int) (rest : List (String × Int)) :
    sumFor x ((k, v) :: rest)
      = if k = x then v + sumFor x rest else sumFor x rest := rfl

/-- `sumFor` distributes over append. -/
theorem sumFor_append (x : String) (l1 l2 : List (String × Int)) :
    sumFor x (l1 ++ l2) = sumFor x l1 + sumFor x l2 := by
  induction l1 with
  | nil => simp [sumFor]
  | cons q l1 ih =>
    rcases q with ⟨k, v⟩
    rw [List.cons_append, sumFor_cons, sumFor_cons, ih]
    split_ifs <;> ring

/-- Bumping an absent key appends the new binding at the end. -/
theorem bump_not_mem (m : List (String × Int)) (t : String) (v : Int)
    (h : t ∉ m.map Prod.fst) : bumpTag m t v = m ++ [(t, v)] := by
  induction m with
  | nil => rfl
  | cons q rest ih =>
    rcases q with ⟨k, w⟩
    simp only [List.map_cons, List.mem_cons] at h
    push_neg at h
    have hk : ¬ (k = t) := fun he => h.1 he.symm
    show (if k = t then (k, w + v) :: rest else (k, w) :: bumpTag rest t v)
        = (k, w) :: (rest ++ [(t, v)])
    rw [if_neg hk, ih h.2]

/-- Updating a key absent from the map is the identity. -/
theorem map_upd_id (m : List (String × Int)) (t : String) (v : Int)
    (h : t ∉ m.map Prod.fst) :
    m.map (fun kv => if kv.1 = t then (kv.1, kv.2 + v) else kv) = m := by
  induction m with
  | nil => rfl
  | cons q rest ih =>
    rcases q with ⟨k, w⟩
    simp only [List.map_cons, List.mem_cons] at h
    push_neg at h
    have hk : ¬ (k = t) := fun he => h.1 he.symm
    simp only [List.map_cons, if_neg hk]
    rw [ih h.2]

/-- Bumping a present key (in a map with distinct keys) updates that
binding in place. -/
theorem bump_mem (m : List (String × Int)) (t : String) (v : Int)
    (hnd : (m.map Prod.fst).Nodup) (h : t ∈ m.map Prod.fst) :
    bumpTag m t v
      = m.map (fun kv => if kv.1 = t then (kv.1, kv.2 + v) else kv) := by
  induction m with
  | nil => simp at h
  | cons q rest ih =>
    rcases q with ⟨k, w⟩
    simp only [List.map_cons, List.nodup_cons] at hnd
    simp only [List.map_cons, List.mem_cons] at h
    by_cases hk : k = t
    · show (if k = t then (k, w + v) :: rest else (k, w) :: bumpTag rest t v) = _
      rw [if_pos hk]
      simp only [List.map_cons, if_pos hk]
      rw [map_upd_id rest t v (hk ▸ hnd.1)]
    · show (if k = t then (k, w + v) :: rest else (k, w) :: bumpTag rest t v) = _
      rw [if_neg hk]
      have ht : t ∈ rest.map Prod.fst := by
        rcases h with h1 | h2
        · exact absurd h1.symm hk
        · exact h2
      simp only [List.map_cons, if_neg hk]
      rw [ih hnd.2 ht]

/-- Keys produced by `newTagKeys` are fresh with respect to `seen`. -/
theorem newTagKeys_not_mem (ks : List String) :
    ∀ (seen : List String) (u : String), u ∈ newTagKeys seen ks → u ∉ seen := by
  induction ks with
  | nil =>
    intro seen u hu
    simp [newTagKeys] at hu
  | cons t ks ih =>
    intro seen u hu
    by_cases hts : t ∈ seen
    · rw [show newTagKeys seen (t :: ks) = newTagKeys seen ks from by
        simp [newTagKeys, hts]] at hu
      exact ih seen u hu
    · rw [show newTagKeys seen (t :: ks) = t :: newTagKeys (seen ++ [t]) ks from by
        simp [newTagKeys, hts]] at hu
      rcases List.mem_cons.mp hu with h1 | h2
      · subst h1
        exact hts
      · have h3 := ih (seen ++ [t]) u h2
        intro hc
        exact h3 (List.mem_append_left _ hc)

/-- The central characterisation of the tag-map fold: starting from a map
with distinct keys, folding a pair stream adds each key's stream total to
its binding and appends the stream's fresh keys, in first-encounter order,
with their stream totals. -/
theorem foldPairs_eq (pairs : List (String × Int)) :
    ∀ m : List (String × Int), (m.map Prod.fst).Nodup →
      foldPairs m pairs
        = m.map (fun kv => (kv.1, kv.2 + sumFor kv.1 pairs))
          ++ (newTagKeys (m.map Prod.fst) (pairs.map Prod.fst)).map
              (fun t => (t, sumFor t pairs)) := by
  induction pairs with
  | nil =>
    intro m _
    simp [foldPairs, newTagKeys, sumFor]
  | cons q rest ih =>
    rcases q with ⟨t, v⟩
    intro m hnd
    show foldPairs (bumpTag m t v) rest = _
    by_cases hmem : t ∈ m.map Prod.fst
    · have hbump := bump_mem m t v hnd hmem
      have hkeys : (bumpTag m t v).map Prod.fst = m.map Prod.fst := by
        rw [hbump, List.map_map]
        apply List.map_congr_left
        intro kv _
        by_cases hkv : kv.1 = t <;> simp [hkv]
      have hnd2 : ((bumpTag m t v).map Prod.fst).Nodup := by
        rw [hkeys]
        exact hnd
      rw [ih (bumpTag m t v) hnd2, hkeys]
      simp only [List.map_cons]
      rw [show newTagKeys (m.map Prod.fst) (t :: rest.map Prod.fst)
            = newTagKeys (m.map Prod.fst) (rest.map Prod.fst) from by
        simp [newTagKeys, hmem]]
      congr 1
      · rw [hbump, List.map_map]
        apply List.map_congr_left
        intro kv _
        by_cases hkvt : kv.1 = t
        · have hs : sumFor kv.1 ((t, v) :: rest) = v + sumFor kv.1 rest := by
            rw [sumFor_cons, if_pos hkvt.symm]
          simp only [Function.comp, if_pos hkvt, hs]
          rw [add_assoc]
        · have hs : sumFor kv.1 ((t, v) :: rest) = sumFor kv.1 rest := by
            rw [sumFor_cons, if_neg (fun he => hkvt he.symm)]
          simp only [Function.comp, if_neg hkvt, hs]
      · apply List.map_congr_left
        intro u hu
        have hus : u ∉ m.map Prod.fst := newTagKeys_not_mem _ _ _ hu
        have hut : ¬ (t = u) := fun he => hus (he ▸ hmem)
        rw [sumFor_cons, if_neg hut]
    · have hbump := bump_not_mem m t v hmem
      have hkeys : (bumpTag m t v).map Prod.fst = m.map Prod.fst ++ [t] := by
        rw [hbump]
        simp
      have hnd2 : ((bumpTag m t v).map Prod.fst).Nodup := by
        rw [hkeys]
        refine hnd.append (by simp) ?_
        intro x hx hx2
        simp only [List.mem_singleton] at hx2
        subst hx2
        exact hmem hx
      rw [ih (bumpTag m t v) hnd2, hkeys, hbump]
      simp only [List.map_cons, List.map_append, List.map_nil]
      rw [show newTagKeys (m.map Prod.fst) (t :: rest.map Prod.fst)
            = t :: newTagKeys (m.map Prod.fst ++ [t]) (rest.map Prod.fst) from by
        simp [newTagKeys, hmem]]
      rw [List.append_assoc]
      simp only [List.map_cons, List.singleton_append]
      congr 1
      · apply List.map_congr_left
        intro kv hkv
        have hin : kv.1 ∈ m.map Prod.fst := List.mem_map.mpr ⟨kv, hkv, rfl⟩
        have hkvt : ¬ (t = kv.1) := fun he => hmem (he ▸ hin)
        rw [sumFor_cons, if_neg hkvt]
      · congr 1
        · rw [sumFor_cons, if_pos rfl]
        · apply List.map_congr_left
          intro u hu
          have hus : u ∉ m.map Prod.fst ++ [t] := newTagKeys_not_mem _ _ _ hu
          have hut : ¬ (t = u) := by
            intro he
            subst he
            exact hus (List.mem_append_right _ (by simp))
          rw [sumFor_cons, if_neg hut]

/-- The inner loop of `aggregateTags` over one session's tags, as a
`foldPairs` over constant-minute pairs. -/
theorem foldTags_eq (v : Int) (tags : List String) :
    ∀ m : List (String × Int),
      tags.foldl (fun m t => bumpTag m t v) m
        = foldPairs m (tags.map (fun t => (t, v))) := by
  induction tags with
  | nil =>
    intro m
    rfl
  | cons t tags ih =>
    intro m
    exact ih (bumpTag m t v)

/-- The nested loops of `aggregateTags` equal the fold over the flattened
pair stream. -/
theorem buildTagMap_eq (sessions : List Session) :
    ∀ m : List (String × Int),
      sessions.foldl
          (fun m s => s.tags.foldl (fun m t => bumpTag m t s.minutes) m) m
        = foldPairs m (tagPairs sessions) := by
  induction sessions with
  | nil =>
    intro m
    rfl
  | cons s rest ih =>
    intro m
    show rest.foldl _ (s.tags.foldl _ m)
        = foldPairs m (s.tags.map (fun t => (t, s.minutes)) ++ tagPairs rest)
    rw [ih, foldTags_eq]
    simp [foldPairs, List.foldl_append]

/-- The stream total of a constant-minute tag list counts multiplicity. -/
theorem sumFor_map_const (x : String) (v : Int) (tags : List String) :
    sumFor x (tags.map (fun t => (t, v))) = v * tags.count x := by
  induction tags with
  | nil => simp [sumFor]
  | cons t tags ih =>
    simp only [List.map_cons]
    rw [sumFor_cons, List.count_cons]
    by_cases ht : t = x <;> simp [ht, ih] <;> ring

/-- The stream total over all sessions is the per-occurrence total. -/
theorem sumFor_tagPairs (x : String) (sessions : List Session) :
    sumFor x (tagPairs sessions) = multTotal x sessions := by
  induction sessions with
  | nil => rfl
  | cons s rest ih =>
    show sumFor x (s.tags.map (fun t => (t, s.minutes)) ++ tagPairs rest)
        = s.minutes * s.tags.count x + multTotal x rest
    rw [sumFor_append, sumFor_map_const, ih]

/-- The tag map built by `aggregateTags`: first-encountered distinct tags,
each bound to its per-occurrence minutes total. -/
theorem buildTagMap_spec (sessions : List Session) :
    buildTagMap sessions
      = (firstEncounterTags sessions).map (fun t => (t, multTotal t sessions)) := by
  have h1 : buildTagMap sessions = foldPairs [] (tagPairs sessions) :=
    buildTagMap_eq sessions []
  rw [h1, foldPairs_eq (tagPairs sessions) [] (by simp)]
  simp only [List.map_nil, List.nil_append]
  apply List.map_congr_left
  intro u _
  rw [sumFor_tagPairs]

/-- Membership in a stable descending insertion. -/
theorem mem_insertDesc (x y : String × Int) (l : List (String × Int))
    (h : y ∈ insertDesc x l) : y = x ∨ y ∈ l := by
  induction l with
  | nil =>
    simp [insertDesc] at h
    exact Or.inl h
  | cons z l ih =>
    rw [show insertDesc x (z :: l)
          = if z.2 ≤ x.2 then x :: z :: l else z :: insertDesc x l from rfl] at h
    by_cases hz : z.2 ≤ x.2
    · rw [if_pos hz] at h
      rcases List.mem_cons.mp h with h1 | h2
      · exact Or.inl h1
      · exact Or.inr h2
    · rw [if_neg hz] at h
      rcases List.mem_cons.mp h with h1 | h2
      · exact Or.inr (h1 ▸ List.mem_cons_self _ _)
      · rcases ih h2 with h3 | h4
        · exact Or.inl h3
        · exact Or.inr (List.mem_cons_of_mem _ h4)

/-- Stable descending insertion preserves descending order by value. -/
theorem pairwise_insertDesc (x : String × Int) (l : List (String × Int))
    (hl : List.Pairwise (fun a b : String × Int => b.2 ≤ a.2) l) :
    List.Pairwise (fun a b : String × Int => b.2 ≤ a.2) (insertDesc x l) := by
  induction l with
  | nil => simp [insertDesc]
  | cons z l ih =>
    rcases List.pairwise_cons.mp hl with ⟨hz, hl2⟩
    rw [show insertDesc x (z :: l)
          = if z.2 ≤ x.2 then x :: z :: l else z :: insertDesc x l from rfl]
    by_cases hcond : z.2 ≤ x.2
    · rw [if_pos hcond]
      refine List.pairwise_cons.mpr ⟨?_, hl⟩
      intro y hy
      rcases List.mem_cons.mp hy with h1 | h2
      · exact h1 ▸ hcond
      · exact le_trans (hz y h2) hcond
    · rw [if_neg hcond]
      refine List.pairwise_cons.mpr ⟨?_, ih hl2⟩
      intro y hy
      rcases mem_insertDesc x y l hy with h1 | h2
      · exact h1 ▸ le_of_lt (lt_of_not_le hcond)
      · exact hz y h2

/-- The stable sort of `aggregateTags` yields a list descending by value. -/
theorem sortDescByVal_sorted (l : List (String × Int)) :
    List.Pairwise (fun a b : String × Int => b.2 ≤ a.2) (sortDescByVal l) := by
  induction l with
  | nil => simp [sortDescByVal]
  | cons x l ih => exact pairwise_insertDesc x (sortDescByVal l) ih

/-- Counterexample to C9 as stated: a session whose tag list repeats a tag
contributes its minutes once per occurrence, so `aggregateTags` disagrees
with the containing-session reading of the claim. -/
theorem aggregateTags_counterexample :
    aggregateTags [⟨"2024-05-01", 30, "t", ["a", "a"]⟩] 10 = [("a", 60)] ∧
    aggregateTagsSpecMem [⟨"2024-05-01", 30, "t", ["a", "a"]⟩] 10
      = [("a", 30)] ∧
    (aggregateTags [⟨"2024-05-01", 30, "t", ["a", "a"]⟩] 10
        = aggregateTagsSpecMem [⟨"2024-05-01", 30, "t", ["a", "a"]⟩] 10
      → False) := by
  refine ⟨by decide, by decide, by decide⟩

/-- C9 (amended): for every sessions collection and limit, `aggregateTags`
equals the pipeline that maps each first-encountered tag to the sum over
sessions of `minutes * (occurrences of the tag)` — each occurrence of a tag
in a session's tag list contributes the session's full minutes — stably
sorted descending by total (ties keeping first-encounter order) and
truncated to the top `limit`; the result is sorted descending by total with
at most `limit` entries, and a single session of 30 minutes with tags
`["a", "b"]` yields both `a: 30` and `b: 30`. -/
theorem aggregateTags_spec :
    (∀ (sessions : List Session) (limit : Nat),
      aggregateTags sessions limit = aggregateTagsSpecMult sessions limit) ∧
    (∀ (sessions : List Session) (limit : Nat),
      List.Pairwise (fun a b : String × Int => b.2 ≤ a.2)
        (aggregateTags sessions limit)) ∧
    (∀ (sessions : List Session) (limit : Nat),
      (aggregateTags sessions limit).length ≤ limit) ∧
    aggregateTags [⟨"2024-05-01", 30, "t", ["a", "b"]⟩] 10
      = [("a", 30), ("b", 30)] := by
  refine ⟨?_, ?_, ?_, by decide⟩
  · intro sessions limit
    unfold aggregateTags aggregateTagsSpecMult
    rw [buildTagMap_spec]
  · intro sessions limit
    exact List.Pairwise.sublist (List.take_sublist _ _) (sortDescByVal_sorted _)
  · intro sessions limit
    unfold aggregateTags
    rw [List.length_take]
    exact min_le_left _ _

end App

